import Mathlib

/-!
Verification of the course-grouping script `src/app/to_subjects.py`.

The script (in full):

  courses = (a triple-quoted literal containing a single newline, i.e. "\n")

  def process_courses(course_list):
      course_dict = {}
      for line in course_list.strip().splitlines():
          subject, course_num = line.split('-')
          if subject in course_dict:
              course_dict[subject].append(course_num)
          else:
              course_dict[subject] = [course_num]
      return course_dict

  course_dict = process_courses(courses)
  with open('subject_data.json', 'w') as json_file:
      json.dump(course_dict, json_file, indent=2)
  print("Data successfully written to subject_data.json.")

Modelling conventions:
* strings are `List Char`;
* `str.strip()` is modelled with the ASCII whitespace characters
  (space, tab, newline, carriage return, vertical tab, form feed);
* `str.splitlines()` is modelled with the newline character as the line
  boundary (the only line boundary occurring in the program's data);
* `subject, course_num = line.split('-')` is a 2-tuple unpacking of the full
  split (`split` has no maxsplit argument here), so it succeeds exactly when
  the split has exactly two parts, i.e. the line contains exactly one dash;
  any other shape raises ValueError, modelled as `none`;
* the dictionary is modelled as an insertion-ordered association list, which
  is exactly the observable behaviour of a Python dict.
-/

/-- The whitespace test used by Python's `str.strip()` (ASCII range). -/
def pyWs (c : Char) : Bool :=
  c = ' ' || c = '\t' || c = '\n' || c = '\r' || c = '\x0b' || c = '\x0c'

/-- Drop leading whitespace, as in `str.lstrip()`. -/
def stripLeft (s : List Char) : List Char := s.dropWhile pyWs

/-- Drop trailing whitespace, as in `str.rstrip()`. -/
def stripRight : List Char → List Char
  | [] => []
  | c :: cs =>
    match stripRight cs with
    | [] => if pyWs c then [] else [c]
    | r => c :: r

/-- `str.strip()`: drop whitespace from both ends. -/
def pyStrip (s : List Char) : List Char := stripLeft (stripRight s)

/-- `str.splitlines()` with the newline character as line boundary:
`"" ↦ []`, `"a\nb" ↦ ["a", "b"]`, a trailing newline opens no new line. -/
def pyLines : List Char → List (List Char)
  | [] => []
  | c :: cs =>
    if c = '\n' then [] :: pyLines cs
    else
      match pyLines cs with
      | [] => [[c]]
      | l :: ls => (c :: l) :: ls

/-- `str.split(sep)` for a one-character separator, no maxsplit:
`"" ↦ [""]`, `"a-b-c" ↦ ["a", "b", "c"]`. -/
def splitChar (sep : Char) : List Char → List (List Char)
  | [] => [[]]
  | c :: cs =>
    if c = sep then [] :: splitChar sep cs
    else
      match splitChar sep cs with
      | [] => [[c]]
      | p :: ps => (c :: p) :: ps

/-- `subject, course_num = line.split('-')`: the unpacking succeeds exactly
when the split has two parts; otherwise Python raises ValueError (`none`). -/
def parseLine (line : List Char) : Option (List Char × List Char) :=
  match splitChar '-' line with
  | [a, b] => some (a, b)
  | _ => none

/-- The Python dict mapping subject strings to lists of course-number
strings, modelled as an insertion-ordered association list. -/
abbrev Dict := List (List Char × List (List Char))

/-- One loop iteration's dict update: append to an existing key's list,
or add a new key (at the end, as dict insertion does). -/
def addCourse (d : Dict) (subject num : List Char) : Dict :=
  match d with
  | [] => [(subject, [num])]
  | (k, v) :: rest =>
    if k = subject then (k, v ++ [num]) :: rest
    else (k, v) :: addCourse rest subject num

/-- The loop of `process_courses` over the lines. -/
def processLines (d : Dict) : List (List Char) → Option Dict
  | [] => some d
  | line :: rest =>
    match parseLine line with
    | none => none
    | some (s, n) => processLines (addCourse d s n) rest

/-- `process_courses`: strip the block, split into lines, fold the loop. -/
def process_courses (course_list : List Char) : Option Dict :=
  processLines [] (pyLines (pyStrip course_list))

/-- The hardcoded input constant `courses`, a single newline. -/
def courses : List Char := "\n".toList

/-- Folding the dict updates over an already-parsed list of
(subject, course number) pairs; `processLines` is this fold when every
line parses. -/
def addAll (d : Dict) : List (List Char × List Char) → Dict
  | [] => d
  | (s, n) :: ps => addAll (addCourse d s n) ps

/-- The pairs a block's lines parse to, in input order. -/
def parsedPairs (input : List Char) : List (List Char × List Char) :=
  (pyLines (pyStrip input)).filterMap parseLine

/-- Total number of course numbers stored across all values of the dict. -/
def sumLens : Dict → Nat
  | [] => 0
  | p :: d => p.2.length + sumLens d

/-- A line is blank when it is empty after trimming, i.e. all whitespace. -/
def isBlank (l : List Char) : Bool := l.all pyWs

/-- Number of non-blank lines in a list of lines. -/
def countNonBlank : List (List Char) → Nat
  | [] => 0
  | l :: ls => (if isBlank l then 0 else 1) + countNonBlank ls

/-- The course numbers attached to subject `s` in a pair list, in order. -/
def nums (s : List Char) : List (List Char × List Char) → List (List Char)
  | [] => []
  | p :: ps => if p.1 = s then p.2 :: nums s ps else nums s ps

/-- First-appearance order of the subjects of a pair list, skipping
subjects already seen. -/
def firstKeysAfter (seen : List (List Char)) : List (List Char × List Char) → List (List Char)
  | [] => []
  | p :: ps => if p.1 ∈ seen then firstKeysAfter seen ps else p.1 :: firstKeysAfter (p.1 :: seen) ps

/-- First-appearance order of the subjects of a pair list. -/
def firstKeys (ps : List (List Char × List Char)) : List (List Char) :=
  firstKeysAfter [] ps

/-- Dict lookup (Python `course_dict[subject]`). -/
def lookupD (s : List Char) : Dict → Option (List (List Char))
  | [] => none
  | (k, v) :: d => if k = s then some v else lookupD s d

/-- The keys of the dict, in order. -/
def keysOf (d : Dict) : List (List Char) := d.map Prod.fst

/-- The effect of the whole-block `strip` on the line list: drop leading
blank lines, left-trim the first surviving line. -/
def trimLeftLines : List (List Char) → List (List Char)
  | [] => []
  | l :: ls => if isBlank l then trimLeftLines ls else l.dropWhile pyWs :: ls

/-- The effect of the whole-block `strip` on the line list: drop trailing
blank lines, right-trim the last surviving line. -/
def trimRightLines : List (List Char) → List (List Char)
  | [] => []
  | l :: ls =>
    match trimRightLines ls with
    | [] => if isBlank l then [] else [stripRight l]
    | r => l :: r

/-! ### The JSON serializer and parser

`json.dump(course_dict, json_file, indent=2)` writes the dict as an
indented JSON object (default `ensure_ascii=True`: characters outside
printable ASCII are escaped, astral characters as surrogate pairs).
`jsonDump` models the text written; `jsonLoads` models `json.loads` on
the JSON fragment the program can emit (an object whose values are
arrays of strings; objects are returned as ordered entry lists, which
matches Python dict reconstruction when keys are distinct, as they are
in every grouped mapping). -/

/-- The four lowercase hex digits of `n % 65536`, most significant first. -/
def hexDigit (d : Nat) : Char :=
  if d < 10 then Char.ofNat (48 + d) else Char.ofNat (87 + d)

/-- Four-digit lowercase hex rendering used by `\uXXXX` escapes. -/
def hex4 (n : Nat) : List Char :=
  [hexDigit (n / 4096 % 16), hexDigit (n / 256 % 16), hexDigit (n / 16 % 16), hexDigit (n % 16)]

/-- JSON escaping of one character, as Python's `ensure_ascii` encoder:
two-character short escapes, printable ASCII verbatim, `\uXXXX` otherwise,
astral characters as a surrogate pair. -/
def escChar (c : Char) : List Char :=
  if c = '"' then ['\\', '"']
  else if c = '\\' then ['\\', '\\']
  else if c = '\x08' then ['\\', 'b']
  else if c = '\x0c' then ['\\', 'f']
  else if c = '\n' then ['\\', 'n']
  else if c = '\r' then ['\\', 'r']
  else if c = '\t' then ['\\', 't']
  else if 0x20 ≤ c.toNat ∧ c.toNat ≤ 0x7e then [c]
  else if c.toNat < 0x10000 then '\\' :: 'u' :: hex4 c.toNat
  else
    ('\\' :: 'u' :: hex4 (0xd800 + (c.toNat - 0x10000) / 0x400)) ++
      ('\\' :: 'u' :: hex4 (0xdc00 + (c.toNat - 0x10000) % 0x400))

/-- JSON escaping of a string body. -/
def escStr : List Char → List Char
  | [] => []
  | c :: s => escChar c ++ escStr s

/-- A JSON string literal. -/
def dumpStr (s : List Char) : List Char := '"' :: (escStr s ++ ['"'])

/-- The items of a nonempty array at indent level 4, including the
closing `]` at indent level 2 (the layout of `indent=2` at depth 2). -/
def dumpArrTail : List (List Char) → List Char
  | [] => []
  | [v] => ' ' :: ' ' :: ' ' :: ' ' :: (dumpStr v ++ ('\n' :: ' ' :: ' ' :: ']' :: []))
  | v :: vs => ' ' :: ' ' :: ' ' :: ' ' :: (dumpStr v ++ (',' :: '\n' :: dumpArrTail vs))

/-- A JSON array of strings as `indent=2` renders it at depth 1:
empty arrays stay on one line. -/
def dumpArr (vs : List (List Char)) : List Char :=
  match vs with
  | [] => '[' :: ']' :: []
  | _ => '[' :: '\n' :: dumpArrTail vs

/-- The entries of a nonempty object at indent level 2, including the
closing `}` at column 0. -/
def dumpEntriesTail : Dict → List Char
  | [] => []
  | [(k, v)] => ' ' :: ' ' :: (dumpStr k ++ (':' :: ' ' :: (dumpArr v ++ ('\n' :: '}' :: []))))
  | (k, v) :: d => ' ' :: ' ' :: (dumpStr k ++ (':' :: ' ' :: (dumpArr v ++ (',' :: '\n' :: dumpEntriesTail d))))

/-- The text `json.dump(d, file, indent=2)` writes. -/
def jsonDump (d : Dict) : List Char :=
  match d with
  | [] => '{' :: '}' :: []
  | _ => '{' :: '\n' :: dumpEntriesTail d

/-- The driver: run the grouper, and on success write the serialized dict
to `subject_data.json`; the returned value is the file content written,
`none` when the grouping raised and the write was never reached. -/
def drive (input : List Char) : Option (List Char) :=
  (process_courses input).map jsonDump

/-- JSON whitespace, as skipped between tokens by `json.loads`. -/
def jws (c : Char) : Bool :=
  c = ' ' || c = '\t' || c = '\n' || c = '\r'

/-- Skip JSON whitespace. -/
def skipWs (s : List Char) : List Char := s.dropWhile jws

/-- The value of one hex digit character, upper or lower case. -/
def hexVal (c : Char) : Option Nat :=
  if 48 ≤ c.toNat ∧ c.toNat ≤ 57 then some (c.toNat - 48)
  else if 97 ≤ c.toNat ∧ c.toNat ≤ 102 then some (c.toNat - 87)
  else if 65 ≤ c.toNat ∧ c.toNat ≤ 70 then some (c.toNat - 55)
  else none

/-- Prepend a decoded character to a string-parse result. -/
def consCh (c : Char) : Option (List Char × List Char) → Option (List Char × List Char)
  | none => none
  | some (s, t) => some (c :: s, t)

/-- Parse a JSON string body (after the opening quote) up to and over the
closing quote, decoding escapes, recombining surrogate pairs, and
rejecting raw control characters (`strict=True`).  The fuel bounds the
number of decoded characters; any fuel larger than the input length is
enough. -/
def parseStrBody : Nat → List Char → Option (List Char × List Char)
  | 0, _ => none
  | fuel + 1, input =>
    match input with
    | [] => none
    | c :: t =>
      if c = '"' then some ([], t)
      else if c = '\\' then
        match t with
        | [] => none
        | e :: t1 =>
          if e = '"' then consCh '"' (parseStrBody fuel t1)
          else if e = '\\' then consCh '\\' (parseStrBody fuel t1)
          else if e = '/' then consCh '/' (parseStrBody fuel t1)
          else if e = 'b' then consCh '\x08' (parseStrBody fuel t1)
          else if e = 'f' then consCh '\x0c' (parseStrBody fuel t1)
          else if e = 'n' then consCh '\n' (parseStrBody fuel t1)
          else if e = 'r' then consCh '\r' (parseStrBody fuel t1)
          else if e = 't' then consCh '\t' (parseStrBody fuel t1)
          else if e = 'u' then
            match t1 with
            | a :: b :: c2 :: d2 :: t2 =>
              match hexVal a, hexVal b, hexVal c2, hexVal d2 with
              | some x, some y, some z, some w =>
                if 0xd800 ≤ x * 4096 + y * 256 + z * 16 + w ∧
                    x * 4096 + y * 256 + z * 16 + w ≤ 0xdbff then
                  match t2 with
                  | b1 :: u1 :: a3 :: b3 :: c3 :: d3 :: t3 =>
                    if b1 = '\\' ∧ u1 = 'u' then
                      match hexVal a3, hexVal b3, hexVal c3, hexVal d3 with
                      | some x2, some y2, some z2, some w2 =>
                        if 0xdc00 ≤ x2 * 4096 + y2 * 256 + z2 * 16 + w2 ∧
                            x2 * 4096 + y2 * 256 + z2 * 16 + w2 ≤ 0xdfff then
                          consCh
                            (Char.ofNat (0x10000 +
                              (x * 4096 + y * 256 + z * 16 + w - 0xd800) * 0x400 +
                              (x2 * 4096 + y2 * 256 + z2 * 16 + w2 - 0xdc00)))
                            (parseStrBody fuel t3)
                        else none
                      | _, _, _, _ => none
                    else none
                  | _ => none
                else if 0xdc00 ≤ x * 4096 + y * 256 + z * 16 + w ∧
                    x * 4096 + y * 256 + z * 16 + w ≤ 0xdfff then none
                else consCh (Char.ofNat (x * 4096 + y * 256 + z * 16 + w)) (parseStrBody fuel t2)
              | _, _, _, _ => none
            | _ => none
          else none
      else if c.toNat < 0x20 then none
      else consCh c (parseStrBody fuel t)

/-- Parse the items of a nonempty JSON array of strings, positioned after
the opening bracket, consuming the closing bracket. -/
def parseItems : Nat → List Char → Option (List (List Char) × List Char)
  | 0, _ => none
  | fuel + 1, input =>
    match skipWs input with
    | '"' :: t =>
      match parseStrBody (fuel + 1) t with
      | some (s, t1) =>
        match skipWs t1 with
        | ',' :: t2 =>
          match parseItems fuel t2 with
          | some (vs, t3) => some (s :: vs, t3)
          | none => none
        | ']' :: t2 => some ([s], t2)
        | _ => none
      | none => none
    | _ => none

/-- Parse a JSON array of strings. -/
def parseArr (fuel : Nat) (input : List Char) : Option (List (List Char) × List Char) :=
  match skipWs input with
  | '[' :: t =>
    match skipWs t with
    | ']' :: t1 => some ([], t1)
    | _ => parseItems fuel t
  | _ => none

/-- Parse the entries of a nonempty JSON object of string arrays,
positioned after the opening brace, consuming the closing brace. -/
def parseEntries : Nat → List Char → Option (Dict × List Char)
  | 0, _ => none
  | fuel + 1, input =>
    match skipWs input with
    | '"' :: t =>
      match parseStrBody (fuel + 1) t with
      | some (k, t1) =>
        match skipWs t1 with
        | ':' :: t2 =>
          match parseArr (fuel + 1) t2 with
          | some (vs, t3) =>
            match skipWs t3 with
            | ',' :: t4 =>
              match parseEntries fuel t4 with
              | some (d, t5) => some ((k, vs) :: d, t5)
              | none => none
            | '}' :: t4 => some ([(k, vs)], t4)
            | _ => none
          | none => none
        | _ => none
      | none => none
    | _ => none

/-- `json.loads` on the fragment the program emits: a single object whose
values are arrays of strings, with nothing but whitespace after it. -/
def jsonLoads (s : List Char) : Option Dict :=
  match skipWs s with
  | '{' :: t =>
    match skipWs t with
    | '}' :: t1 => if (skipWs t1).isEmpty then some [] else none
    | _ =>
      match parseEntries (s.length + 1) t with
      | some (d, t1) => if (skipWs t1).isEmpty then some d else none
      | none => none
  | _ => none

/-! ### Basic facts about the line splitter and the per-line parse -/

theorem splitChar_ne_nil (sep : Char) (l : List Char) : splitChar sep l ≠ [] := by
  cases l with
  | nil => simp [splitChar]
  | cons c cs =>
    simp only [splitChar]
    split
    · simp
    · split <;> simp

theorem splitChar_length (sep : Char) (l : List Char) :
    (splitChar sep l).length = l.count sep + 1 := by
  induction l with
  | nil => simp [splitChar]
  | cons c cs ih =>
    simp only [splitChar, List.count_cons]
    by_cases h : c = sep
    · rw [if_pos h, if_pos (by simp [h])]
      simp only [List.length_cons, ih]
    · rw [if_neg h, if_neg (by simp [h])]
      cases hs : splitChar sep cs with
      | nil => exact absurd hs (splitChar_ne_nil sep cs)
      | cons p ps =>
        rw [hs] at ih
        simp only [List.length_cons] at ih ⊢
        omega

theorem parseLine_eq_none (l : List Char) (h : l.count '-' ≠ 1) : parseLine l = none := by
  have hl := splitChar_length '-' l
  unfold parseLine
  rcases hs : splitChar '-' l with _ | ⟨a, _ | ⟨b, _ | ⟨c, tl⟩⟩⟩
  · rfl
  · rfl
  · rw [hs] at hl
    simp only [List.length_cons, List.length_nil] at hl
    omega
  · rfl

theorem parseLine_eq_some (l : List Char) (h : l.count '-' = 1) :
    ∃ a b, splitChar '-' l = [a, b] ∧ parseLine l = some (a, b) := by
  have hl := splitChar_length '-' l
  rw [h] at hl
  rcases hs : splitChar '-' l with _ | ⟨a, _ | ⟨b, _ | ⟨c, tl⟩⟩⟩
  · exact absurd hs (splitChar_ne_nil '-' l)
  · rw [hs] at hl; simp at hl
  · exact ⟨a, b, rfl, by unfold parseLine; rw [hs]⟩
  · rw [hs] at hl; simp at hl

theorem parseLine_some_count (l : List Char) (p : List Char × List Char)
    (h : parseLine l = some p) : l.count '-' = 1 := by
  have hl := splitChar_length '-' l
  unfold parseLine at h
  rcases hs : splitChar '-' l with _ | ⟨a, _ | ⟨b, _ | ⟨c, tl⟩⟩⟩ <;> rw [hs] at h hl
  · cases h
  · cases h
  · simp only [List.length_cons, List.length_nil] at hl
    omega
  · cases h

/-! ### Facts about the processing loop -/

theorem processLines_eq_none (L : List (List Char)) (l : List Char) (hmem : l ∈ L)
    (hbad : parseLine l = none) : ∀ d, processLines d L = none := by
  induction L with
  | nil => cases hmem
  | cons a L ih =>
    intro d
    rcases List.mem_cons.mp hmem with h | h
    · subst h
      simp [processLines, hbad]
    · cases hp : parseLine a with
      | none => simp [processLines, hp]
      | some p =>
        obtain ⟨s, n⟩ := p
        simp only [processLines, hp]
        exact ih h _

theorem processLines_eq_some (L : List (List Char)) (h : ∀ l ∈ L, l.count '-' = 1) :
    ∀ d, processLines d L = some (addAll d (L.filterMap parseLine)) := by
  induction L with
  | nil => intro d; simp [processLines, addAll]
  | cons a L ih =>
    intro d
    obtain ⟨s, n, _, hp⟩ := parseLine_eq_some a (h a (by simp))
    simp only [processLines, hp, List.filterMap_cons, addAll]
    exact ih (fun l hl => h l (by simp [hl])) _

theorem processLines_some_inv (L : List (List Char)) :
    ∀ d d', processLines d L = some d' →
      (∀ l ∈ L, l.count '-' = 1) ∧ d' = addAll d (L.filterMap parseLine) := by
  induction L with
  | nil =>
    intro d d' h
    simp only [processLines, Option.some.injEq] at h
    simp [addAll, h]
  | cons a L ih =>
    intro d d' h
    cases hp : parseLine a with
    | none => rw [processLines, hp] at h; cases h
    | some p =>
      obtain ⟨s, n⟩ := p
      rw [processLines, hp] at h
      obtain ⟨h1, h2⟩ := ih _ _ h
      refine ⟨?_, ?_⟩
      · intro l hl
        rcases List.mem_cons.mp hl with h' | h'
        · subst h'; exact parseLine_some_count l (s, n) hp
        · exact h1 l h'
      · simpa [List.filterMap_cons, hp, addAll] using h2

/-! ### Character-class basics -/

theorem pyWs_ne_dash (c : Char) (h : pyWs c = true) : c ≠ '-' := by
  intro h'
  subst h'
  simp [pyWs] at h

theorem isBlank_count_dash (l : List Char) (h : isBlank l = true) : l.count '-' = 0 := by
  refine List.count_eq_zero.mpr fun hm => ?_
  exact pyWs_ne_dash '-' (List.all_eq_true.mp h '-' hm) rfl

/-! ### The whole-block strip, seen at the level of lines -/

theorem pyLines_ne_nil (c : Char) (cs : List Char) : pyLines (c :: cs) ≠ [] := by
  simp only [pyLines]
  split
  · simp
  · split <;> simp

theorem pyLines_cons_nl (cs : List Char) : pyLines ('\n' :: cs) = [] :: pyLines cs := by
  simp [pyLines]

theorem pyLines_cons_of_nil (c : Char) (cs : List Char) (hn : c ≠ '\n')
    (h : pyLines cs = []) : pyLines (c :: cs) = [[c]] := by
  simp [pyLines, hn, h]

theorem pyLines_cons_of_cons (c : Char) (cs : List Char) (l : List Char)
    (ls : List (List Char)) (hn : c ≠ '\n') (h : pyLines cs = l :: ls) :
    pyLines (c :: cs) = (c :: l) :: ls := by
  simp [pyLines, hn, h]

theorem isBlank_cons (c : Char) (l : List Char) :
    isBlank (c :: l) = (pyWs c && isBlank l) := by
  simp [isBlank]

theorem trimLeftLines_cons_blank (l : List Char) (ls : List (List Char))
    (h : isBlank l = true) : trimLeftLines (l :: ls) = trimLeftLines ls := by
  simp [trimLeftLines, h]

theorem trimLeftLines_cons_nonblank (l : List Char) (ls : List (List Char))
    (h : isBlank l = false) : trimLeftLines (l :: ls) = l.dropWhile pyWs :: ls := by
  simp [trimLeftLines, h]

theorem trimRightLines_cons_of_nil (l : List Char) (ls : List (List Char))
    (h : trimRightLines ls = []) :
    trimRightLines (l :: ls) = if isBlank l = true then [] else [stripRight l] := by
  simp [trimRightLines, h]

theorem trimRightLines_cons_of_cons (l : List Char) (ls : List (List Char))
    (r : List Char) (rs : List (List Char)) (h : trimRightLines ls = r :: rs) :
    trimRightLines (l :: ls) = l :: r :: rs := by
  simp [trimRightLines, h]

theorem stripRight_eq_nil_iff (s : List Char) : stripRight s = [] ↔ isBlank s = true := by
  induction s with
  | nil => simp [stripRight, isBlank]
  | cons c cs ih =>
    rw [isBlank_cons]
    simp only [stripRight]
    cases hs : stripRight cs with
    | nil =>
      have hcs : isBlank cs = true := ih.mp hs
      by_cases hc : pyWs c
      · simp [hc, hcs]
      · simp [hc]
    | cons r rs =>
      have hcs : isBlank cs ≠ true := fun h => by
        rw [ih.mpr h] at hs
        cases hs
      simp only [List.cons_ne_nil, false_iff]
      intro h
      exact hcs (by revert h; cases pyWs c <;> cases isBlank cs <;> simp)

theorem stripRight_cons_ne (c : Char) (l : List Char) (h : stripRight l ≠ []) :
    stripRight (c :: l) = c :: stripRight l := by
  conv_lhs => rw [stripRight]
  cases hs : stripRight l with
  | nil => exact absurd hs h
  | cons r rs => simp

theorem stripRight_blank_cons (c : Char) (l : List Char) (hb : isBlank l = true)
    (hc : pyWs c = false) : stripRight (c :: l) = [c] := by
  conv_lhs => rw [stripRight]
  rw [(stripRight_eq_nil_iff l).mpr hb]
  simp [hc]

theorem isBlank_stripRight_false (l : List Char) (h : isBlank l = false) :
    isBlank (stripRight l) = false := by
  induction l with
  | nil => simp [isBlank] at h
  | cons c cs ih =>
    rw [isBlank_cons] at h
    cases hs : stripRight cs with
    | nil =>
      have hcs : isBlank cs = true := (stripRight_eq_nil_iff cs).mp hs
      rw [hcs] at h
      have hc : pyWs c = false := by revert h; cases pyWs c <;> simp
      rw [stripRight_blank_cons c cs hcs hc]
      simp [isBlank, hc]
    | cons r rs =>
      have hne : stripRight cs ≠ [] := by rw [hs]; simp
      rw [stripRight_cons_ne c cs hne, isBlank_cons]
      by_cases hc : pyWs c
      · have hcs : isBlank cs = false := by revert h; rw [hc]; cases isBlank cs <;> simp
        rw [ih hcs]
        simp
      · simp [hc]

theorem isBlank_dropWhile_false (l : List Char) (h : isBlank l = false) :
    isBlank (l.dropWhile pyWs) = false := by
  induction l with
  | nil => simp [isBlank] at h
  | cons c cs ih =>
    rw [isBlank_cons] at h
    by_cases hc : pyWs c
    · rw [List.dropWhile_cons_of_pos hc]
      have hcs : isBlank cs = false := by revert h; rw [hc]; cases isBlank cs <;> simp
      exact ih hcs
    · rw [List.dropWhile_cons_of_neg hc, isBlank_cons]
      simp [hc]

theorem pyLines_stripLeft (s : List Char) :
    pyLines (s.dropWhile pyWs) = trimLeftLines (pyLines s) := by
  induction s with
  | nil => rfl
  | cons c cs ih =>
    by_cases hc : pyWs c
    · rw [List.dropWhile_cons_of_pos hc, ih]
      by_cases hn : c = '\n'
      · rw [hn, pyLines_cons_nl, trimLeftLines_cons_blank [] (pyLines cs) rfl]
      · cases hs : pyLines cs with
        | nil =>
          rw [pyLines_cons_of_nil c cs hn hs,
            trimLeftLines_cons_blank [c] [] (by simp [isBlank, hc])]
        | cons l ls =>
          rw [pyLines_cons_of_cons c cs l ls hn hs]
          cases hb : isBlank l with
          | true =>
            rw [trimLeftLines_cons_blank l ls hb,
              trimLeftLines_cons_blank (c :: l) ls (by simp [isBlank_cons, hc, hb])]
          | false =>
            rw [trimLeftLines_cons_nonblank l ls hb,
              trimLeftLines_cons_nonblank (c :: l) ls (by simp [isBlank_cons, hc, hb]),
              List.dropWhile_cons_of_pos hc]
    · rw [List.dropWhile_cons_of_neg hc]
      have hc' : pyWs c = false := by revert hc; cases pyWs c <;> simp
      have hn : c ≠ '\n' := fun h => by rw [h] at hc; simp [pyWs] at hc
      cases hs : pyLines cs with
      | nil =>
        rw [pyLines_cons_of_nil c cs hn hs,
          trimLeftLines_cons_nonblank [c] [] (by simp [isBlank, hc']),
          List.dropWhile_cons_of_neg hc]
      | cons l ls =>
        rw [pyLines_cons_of_cons c cs l ls hn hs,
          trimLeftLines_cons_nonblank (c :: l) ls (by simp [isBlank_cons, hc']),
          List.dropWhile_cons_of_neg hc]

theorem pyLines_stripRight (s : List Char) :
    pyLines (stripRight s) = trimRightLines (pyLines s) := by
  induction s with
  | nil => rfl
  | cons c cs ih =>
    cases hs : stripRight cs with
    | nil =>
      have hblank : isBlank cs = true := (stripRight_eq_nil_iff cs).mp hs
      rw [hs] at ih
      have htr : trimRightLines (pyLines cs) = [] := ih.symm
      have hsr : stripRight (c :: cs) = if pyWs c = true then [] else [c] := by
        conv_lhs => rw [stripRight]
        rw [hs]
      rw [hsr]
      by_cases hn : c = '\n'
      · have hwc : pyWs c = true := by rw [hn]; decide
        rw [if_pos hwc, hn, pyLines_cons_nl, trimRightLines_cons_of_nil [] (pyLines cs) htr]
        simp [isBlank, pyLines]
      · cases hplcs : pyLines cs with
        | nil =>
          have hcs : cs = [] := by
            cases cs with
            | nil => rfl
            | cons x xs => exact absurd hplcs (pyLines_ne_nil x xs)
          subst hcs
          rw [pyLines_cons_of_nil c [] hn rfl, trimRightLines_cons_of_nil [c] [] rfl]
          by_cases hwc : pyWs c
          · rw [if_pos hwc]
            simp [isBlank, hwc, pyLines]
          · have hwc' : pyWs c = false := by revert hwc; cases pyWs c <;> simp
            rw [if_neg hwc]
            have hb : isBlank [c] = false := by simp [isBlank, hwc']
            rw [hb]
            simp only [Bool.false_eq_true, if_false]
            rw [pyLines_cons_of_nil c [] hn rfl,
              stripRight_blank_cons c [] rfl hwc']
        | cons l ls =>
          rw [hplcs] at htr
          have hls1 : trimRightLines ls = [] := by
            cases hx : trimRightLines ls with
            | nil => rfl
            | cons r2 rs2 =>
              rw [trimRightLines_cons_of_cons l ls r2 rs2 hx] at htr
              cases htr
          have hls2 : isBlank l = true := by
            by_contra hb
            have hb' : isBlank l = false := by revert hb; cases isBlank l <;> simp
            rw [trimRightLines_cons_of_nil l ls hls1, hb'] at htr
            simp at htr
          rw [pyLines_cons_of_cons c cs l ls hn hplcs,
            trimRightLines_cons_of_nil (c :: l) ls hls1]
          by_cases hwc : pyWs c
          · rw [if_pos hwc]
            have hb : isBlank (c :: l) = true := by rw [isBlank_cons, hwc, hls2]; rfl
            simp [hb, pyLines]
          · have hwc' : pyWs c = false := by revert hwc; cases pyWs c <;> simp
            rw [if_neg hwc]
            have hb : isBlank (c :: l) = false := by simp [isBlank_cons, hwc']
            rw [hb]
            simp only [Bool.false_eq_true, if_false]
            rw [stripRight_blank_cons c l hls2 hwc', pyLines_cons_of_nil c [] hn rfl]
    | cons r rs =>
      rw [hs] at ih
      have hcs_ne : cs ≠ [] := fun h => by rw [h] at hs; cases hs
      have hplcs_ne : pyLines cs ≠ [] := by
        cases cs with
        | nil => exact absurd rfl hcs_ne
        | cons x xs => exact pyLines_ne_nil x xs
      have hsr : stripRight (c :: cs) = c :: r :: rs := by
        conv_lhs => rw [stripRight]
        rw [hs]
      rw [hsr]
      by_cases hn : c = '\n'
      · rw [hn, pyLines_cons_nl, pyLines_cons_nl, ih]
        cases hA : trimRightLines (pyLines cs) with
        | nil =>
          rw [← ih] at hA
          exact absurd hA (pyLines_ne_nil r rs)
        | cons a as =>
          rw [trimRightLines_cons_of_cons [] (pyLines cs) a as hA]
      · cases hL : pyLines cs with
        | nil => exact absurd hL hplcs_ne
        | cons l ls =>
          rw [hL] at ih
          cases hA : pyLines (r :: rs) with
          | nil => exact absurd hA (pyLines_ne_nil r rs)
          | cons a as =>
            rw [hA] at ih
            rw [pyLines_cons_of_cons c (r :: rs) a as hn hA,
              pyLines_cons_of_cons c cs l ls hn hL]
            cases hls : trimRightLines ls with
            | cons r2 rs2 =>
              rw [trimRightLines_cons_of_cons l ls r2 rs2 hls] at ih
              injection ih with h1 h2
              rw [h1, h2, trimRightLines_cons_of_cons (c :: l) ls r2 rs2 hls]
            | nil =>
              rw [trimRightLines_cons_of_nil l ls hls] at ih
              have hbl : isBlank l = false := by
                by_contra hb
                have hb' : isBlank l = true := by revert hb; cases isBlank l <;> simp
                rw [hb'] at ih
                simp at ih
              rw [hbl] at ih
              simp only [Bool.false_eq_true, if_false] at ih
              injection ih with h1 h2
              rw [h1, h2, trimRightLines_cons_of_nil (c :: l) ls hls]
              have hb2 : isBlank (c :: l) = false := by simp [isBlank_cons, hbl]
              rw [hb2]
              simp only [Bool.false_eq_true, if_false]
              have hsrl : stripRight l ≠ [] := fun h => by
                rw [(stripRight_eq_nil_iff l).mp h] at hbl
                cases hbl
              rw [stripRight_cons_ne c l hsrl]

theorem pyLines_pyStrip (s : List Char) :
    pyLines (pyStrip s) = trimLeftLines (trimRightLines (pyLines s)) := by
  rw [pyStrip, stripLeft, pyLines_stripLeft, pyLines_stripRight]

theorem stripRight_sublist (s : List Char) : (stripRight s).Sublist s := by
  induction s with
  | nil => simp [stripRight]
  | cons c cs ih =>
    cases hs : stripRight cs with
    | nil =>
      conv_lhs => rw [stripRight]
      rw [hs]
      by_cases hc : pyWs c
      · simp [hc]
      · simp only [hc, Bool.false_eq_true, if_false]
        exact (List.nil_sublist cs).cons₂ c
    | cons r rs =>
      rw [stripRight_cons_ne c cs (by rw [hs]; simp)]
      exact ih.cons₂ c

theorem count_dash_stripRight (l : List Char) (h : l.count '-' = 0) :
    (stripRight l).count '-' = 0 := by
  rw [List.count_eq_zero] at h ⊢
  exact fun hm => h ((stripRight_sublist l).subset hm)

theorem count_dash_dropWhile (l : List Char) (h : l.count '-' = 0) :
    (l.dropWhile pyWs).count '-' = 0 := by
  rw [List.count_eq_zero] at h ⊢
  exact fun hm => h ((List.dropWhile_sublist pyWs).subset hm)

theorem trimRightLines_keeps_bad (L : List (List Char)) (l : List Char)
    (hmem : l ∈ L) (hnb : isBlank l = false) (hnd : l.count '-' = 0) :
    ∃ l2 ∈ trimRightLines L, isBlank l2 = false ∧ l2.count '-' = 0 := by
  induction L with
  | nil => cases hmem
  | cons x xs ih =>
    rcases List.mem_cons.mp hmem with rfl | hmem2
    · cases hx : trimRightLines xs with
      | nil =>
        rw [trimRightLines_cons_of_nil l xs hx, hnb]
        simp only [Bool.false_eq_true, if_false]
        exact ⟨stripRight l, by simp, isBlank_stripRight_false l hnb, count_dash_stripRight l hnd⟩
      | cons r rs =>
        rw [trimRightLines_cons_of_cons l xs r rs hx]
        exact ⟨l, by simp, hnb, hnd⟩
    · obtain ⟨l2, hm2, h2, h3⟩ := ih hmem2
      cases hx : trimRightLines xs with
      | nil => rw [hx] at hm2; cases hm2
      | cons r rs =>
        rw [hx] at hm2
        rw [trimRightLines_cons_of_cons x xs r rs hx]
        exact ⟨l2, List.mem_cons_of_mem _ hm2, h2, h3⟩

theorem trimLeftLines_keeps_bad (L : List (List Char)) (l : List Char)
    (hmem : l ∈ L) (hnb : isBlank l = false) (hnd : l.count '-' = 0) :
    ∃ l2 ∈ trimLeftLines L, isBlank l2 = false ∧ l2.count '-' = 0 := by
  induction L with
  | nil => cases hmem
  | cons x xs ih =>
    rcases List.mem_cons.mp hmem with rfl | hmem2
    · rw [trimLeftLines_cons_nonblank l xs hnb]
      exact ⟨l.dropWhile pyWs, by simp, isBlank_dropWhile_false l hnb, count_dash_dropWhile l hnd⟩
    · cases hb : isBlank x with
      | true =>
        rw [trimLeftLines_cons_blank x xs hb]
        exact ih hmem2
      | false =>
        rw [trimLeftLines_cons_nonblank x xs hb]
        exact ⟨l, List.mem_cons_of_mem _ hmem2, hnb, hnd⟩

/-! ### Counting lemmas -/

theorem sumLens_addCourse (d : Dict) (s n : List Char) :
    sumLens (addCourse d s n) = sumLens d + 1 := by
  induction d with
  | nil => simp [addCourse, sumLens]
  | cons p rest ih =>
    obtain ⟨k, v⟩ := p
    simp only [addCourse]
    by_cases h : k = s
    · rw [if_pos h]
      simp only [sumLens, List.length_append, List.length_cons, List.length_nil]
      omega
    · rw [if_neg h]
      simp only [sumLens, ih]
      omega

theorem sumLens_addAll (P : List (List Char × List Char)) :
    ∀ d, sumLens (addAll d P) = sumLens d + P.length := by
  induction P with
  | nil => intro d; simp [addAll]
  | cons p ps ih =>
    intro d
    obtain ⟨s, n⟩ := p
    simp only [addAll, List.length_cons]
    rw [ih, sumLens_addCourse]
    omega

theorem filterMap_parseLine_length (L : List (List Char))
    (h : ∀ l ∈ L, l.count '-' = 1) : (L.filterMap parseLine).length = L.length := by
  induction L with
  | nil => rfl
  | cons a L ih =>
    obtain ⟨x, y, _, hp⟩ := parseLine_eq_some a (h a (by simp))
    simp only [List.filterMap_cons, hp, List.length_cons]
    rw [ih (fun l hl => h l (by simp [hl]))]

theorem countNonBlank_trimRight (L : List (List Char)) :
    countNonBlank (trimRightLines L) = countNonBlank L := by
  induction L with
  | nil => rfl
  | cons l ls ih =>
    cases hx : trimRightLines ls with
    | nil =>
      rw [hx] at ih
      simp only [countNonBlank] at ih
      rw [trimRightLines_cons_of_nil l ls hx]
      cases hb : isBlank l with
      | true =>
        rw [if_pos rfl]
        show (0 : Nat) = (if isBlank l = true then 0 else 1) + countNonBlank ls
        rw [hb, if_pos rfl]
        omega
      | false =>
        rw [if_neg (by simp)]
        simp [countNonBlank, hb, isBlank_stripRight_false l hb]
        omega
    | cons r rs =>
      rw [hx] at ih
      rw [trimRightLines_cons_of_cons l ls r rs hx]
      show (if isBlank l = true then 0 else 1) + countNonBlank (r :: rs) =
        (if isBlank l = true then 0 else 1) + countNonBlank ls
      rw [ih]

theorem countNonBlank_trimLeft (L : List (List Char)) :
    countNonBlank (trimLeftLines L) = countNonBlank L := by
  induction L with
  | nil => rfl
  | cons l ls ih =>
    cases hb : isBlank l with
    | true =>
      rw [trimLeftLines_cons_blank l ls hb, ih]
      show countNonBlank ls = (if isBlank l = true then 0 else 1) + countNonBlank ls
      rw [hb, if_pos rfl]
      omega
    | false =>
      rw [trimLeftLines_cons_nonblank l ls hb]
      simp only [countNonBlank, hb, isBlank_dropWhile_false l hb]

theorem countNonBlank_all_nonblank (K : List (List Char))
    (h : ∀ l ∈ K, isBlank l = false) : countNonBlank K = K.length := by
  induction K with
  | nil => rfl
  | cons l ls ih =>
    simp only [countNonBlank, h l (by simp), List.length_cons]
    rw [ih (fun x hx => h x (by simp [hx]))]
    simp only [Bool.false_eq_true, if_false]
    omega

theorem count_one_not_blank (l : List Char) (h : l.count '-' = 1) : isBlank l = false := by
  cases hb : isBlank l with
  | true => rw [isBlank_count_dash l hb] at h; cases h
  | false => rfl

/-! ### Claim theorems: error behaviour and counting -/

/-- C1 counterexample: on the spec's own example `"CS-101\n\nMATH-201"`,
the grouper does not skip the interior blank line; the 2-tuple unpacking
of `"".split('-')` raises, so no mapping is produced at all. -/
theorem blank_line_scenario_fails : process_courses "CS-101\n\nMATH-201".toList = none := by
  decide

/-- C1 (amended): an interior blank line is not skipped: whenever a blank
line survives the whole-block trim, the grouper raises (returns no
mapping).  Only leading and trailing whitespace is removed. -/
theorem interior_blank_line_fails (input l : List Char)
    (hmem : l ∈ pyLines (pyStrip input)) (hb : isBlank l = true) :
    process_courses input = none := by
  unfold process_courses
  exact processLines_eq_none _ l hmem
    (parseLine_eq_none l (by rw [isBlank_count_dash l hb]; omega)) []

theorem interior_blank_line_fails_w : process_courses "CS-101\n\nMATH-201".toList = none :=
  interior_blank_line_fails _ [] (by decide) (by decide)

/-- C2 counterexample: on a line with two separators the grouper does not
silently take the first two parts; the 3-way split fails the 2-tuple
unpacking and no mapping is produced (the claim would give
`{"A": ["B-C"]}`). -/
theorem multi_separator_scenario_fails : process_courses "A-B-C".toList = none := by
  decide

/-- C2 (amended): a line with more than one separator character makes the
grouper fail: the split has more than two parts, so the 2-tuple unpacking
raises rather than keeping the text after the first separator. -/
theorem multi_separator_line_fails (input l : List Char)
    (hmem : l ∈ pyLines (pyStrip input)) (h2 : 2 ≤ l.count '-') :
    process_courses input = none := by
  unfold process_courses
  exact processLines_eq_none _ l hmem (parseLine_eq_none l (by omega)) []

theorem multi_separator_line_fails_w : process_courses "A-B-C".toList = none :=
  multi_separator_line_fails _ "A-B-C".toList (by decide) (by decide)

/-- C3: an input block containing a non-blank line with no separator makes
the grouping fail (the ValueError of the failed unpacking, the
`MalformedLineError` of the taxonomy); the error propagates, the driver
never reaches the serialization, and no output file is written. -/
theorem no_separator_line_fails (input : List Char)
    (h : ∃ l ∈ pyLines input, isBlank l = false ∧ l.count '-' = 0) :
    process_courses input = none ∧ drive input = none := by
  obtain ⟨l, hmem, hnb, hnd⟩ := h
  obtain ⟨l2, hm2, h2, h3⟩ := trimRightLines_keeps_bad (pyLines input) l hmem hnb hnd
  obtain ⟨l3, hm3, _, h5⟩ := trimLeftLines_keeps_bad _ l2 hm2 h2 h3
  rw [← pyLines_pyStrip input] at hm3
  have hproc : process_courses input = none := by
    unfold process_courses
    exact processLines_eq_none _ l3 hm3 (parseLine_eq_none l3 (by omega)) []
  exact ⟨hproc, by rw [drive, hproc]; rfl⟩

theorem no_separator_line_fails_w :
    process_courses "CS101".toList = none ∧ drive "CS101".toList = none :=
  no_separator_line_fails "CS101".toList (by decide)

/-- C4 counterexample: the input `"CS-101\n\nMATH-201"` satisfies the
claim's hypothesis (each non-blank line has exactly one separator), yet
the grouper produces no mapping at all, so no count property can hold. -/
theorem line_count_scenario_fails :
    (∀ l ∈ pyLines "CS-101\n\nMATH-201".toList, isBlank l = false → l.count '-' = 1) ∧
      process_courses "CS-101\n\nMATH-201".toList = none := by
  constructor
  · decide
  · decide

/-- C4 (amended): when every line remaining after the whole-block trim has
exactly one separator (so no blank line sits between non-blank lines),
grouping succeeds, each line contributes exactly one pair, and the total
number of stored course numbers equals the number of non-blank input
lines. -/
theorem line_count_conservation (input : List Char)
    (h : ∀ l ∈ pyLines (pyStrip input), l.count '-' = 1) :
    ∃ d, process_courses input = some d ∧ sumLens d = countNonBlank (pyLines input) := by
  refine ⟨addAll [] ((pyLines (pyStrip input)).filterMap parseLine), ?_, ?_⟩
  · unfold process_courses
    exact processLines_eq_some _ h []
  · rw [sumLens_addAll, filterMap_parseLine_length _ h]
    have hnb : ∀ l ∈ pyLines (pyStrip input), isBlank l = false := fun l hl =>
      count_one_not_blank l (h l hl)
    have hlen : countNonBlank (pyLines (pyStrip input)) = (pyLines (pyStrip input)).length :=
      countNonBlank_all_nonblank _ hnb
    rw [sumLens, ← hlen, pyLines_pyStrip input, countNonBlank_trimLeft, countNonBlank_trimRight]
    omega

theorem line_count_conservation_w :
    ∃ d, process_courses "CS-101\nCS-102\nMATH-201".toList = some d ∧
      sumLens d = countNonBlank (pyLines "CS-101\nCS-102\nMATH-201".toList) :=
  line_count_conservation "CS-101\nCS-102\nMATH-201".toList (by decide)

/-- C7: the grouper is deterministic: two runs on the same text that both
succeed produce structurally identical mappings. -/
theorem process_courses_deterministic (input : List Char) (d1 d2 : Dict)
    (h1 : process_courses input = some d1) (h2 : process_courses input = some d2) :
    d1 = d2 := by
  rw [h1] at h2
  exact Option.some.inj h2

theorem process_courses_deterministic_w :
    ([("CS".toList, ["101".toList])] : Dict) = [("CS".toList, ["101".toList])] :=
  process_courses_deterministic "CS-101".toList _ _ (by decide) (by decide)

/-- C9: an input that is empty or all whitespace is reduced to the empty
string by the whole-block trim, splits into zero lines, and yields the
empty mapping; in particular the hardcoded constant (a single newline)
yields the empty mapping and the driver writes the empty JSON object. -/
theorem whitespace_input_empty_mapping :
    (∀ input, (∀ c ∈ input, pyWs c = true) → process_courses input = some []) ∧
      drive courses = some ('{' :: '}' :: []) := by
  constructor
  · intro input h
    have h1 : stripRight input = [] :=
      (stripRight_eq_nil_iff input).mpr (List.all_eq_true.mpr h)
    unfold process_courses pyStrip
    rw [h1]
    rfl
  · decide

theorem whitespace_input_empty_mapping_w :
    process_courses (' ' :: '\t' :: '\n' :: []) = some [] :=
  whitespace_input_empty_mapping.1 _ (by decide)

/-- C10 helper: one dict update keeps every value list non-empty. -/
theorem addCourse_values_ne_nil (d : Dict) (s n : List Char)
    (h : ∀ p ∈ d, p.2 ≠ []) : ∀ p ∈ addCourse d s n, p.2 ≠ [] := by
  induction d with
  | nil =>
    intro p hp
    simp only [addCourse, List.mem_singleton] at hp
    subst hp
    simp
  | cons q rest ih =>
    obtain ⟨k, v⟩ := q
    intro p hp
    simp only [addCourse] at hp
    by_cases hk : k = s
    · rw [if_pos hk] at hp
      rcases List.mem_cons.mp hp with rfl | hp2
      · simp
      · exact h p (List.mem_cons_of_mem _ hp2)
    · rw [if_neg hk] at hp
      rcases List.mem_cons.mp hp with rfl | hp2
      · exact h (k, v) (by simp)
      · exact ih (fun q hq => h q (List.mem_cons_of_mem _ hq)) p hp2

theorem processLines_values_ne_nil (L : List (List Char)) :
    ∀ d d', (∀ p ∈ d, p.2 ≠ []) → processLines d L = some d' → ∀ p ∈ d', p.2 ≠ [] := by
  induction L with
  | nil =>
    intro d d' h hp
    simp only [processLines, Option.some.injEq] at hp
    subst hp
    exact h
  | cons a L ih =>
    intro d d' h hp
    cases hpa : parseLine a with
    | none => rw [processLines, hpa] at hp; cases hp
    | some p =>
      obtain ⟨s, n⟩ := p
      rw [processLines, hpa] at hp
      exact ih _ _ (addCourse_values_ne_nil d s n h) hp

/-- C10: every subject key is only ever bound to a non-empty list: a key
is created with a one-element list, updates only append, and in every
mapping the grouper returns all value lists are non-empty. -/
theorem values_never_empty :
    (∀ (d : Dict) (s n : List Char), (∀ p ∈ d, p.2 ≠ []) → ∀ p ∈ addCourse d s n, p.2 ≠ []) ∧
      (∀ input d, process_courses input = some d → ∀ p ∈ d, p.2 ≠ []) := by
  constructor
  · exact fun d s n h => addCourse_values_ne_nil d s n h
  · intro input d h
    exact processLines_values_ne_nil (pyLines (pyStrip input)) [] d (by simp) h

theorem values_never_empty_w :
    ∀ p ∈ ([("CS".toList, ["101".toList])] : Dict), p.2 ≠ [] :=
  values_never_empty.2 "CS-101".toList _ (by decide)

/-! ### Key order and per-subject value order -/

theorem keysOf_addCourse (d : Dict) (s n : List Char) :
    keysOf (addCourse d s n) = if s ∈ keysOf d then keysOf d else keysOf d ++ [s] := by
  induction d with
  | nil => simp [addCourse, keysOf]
  | cons p rest ih =>
    obtain ⟨k, v⟩ := p
    simp only [addCourse]
    by_cases hk : k = s
    · rw [if_pos hk]
      subst hk
      simp [keysOf]
    · rw [if_neg hk]
      simp only [keysOf, List.map_cons] at ih ⊢
      rw [ih]
      by_cases hs : s ∈ rest.map Prod.fst
      · rw [if_pos hs, if_pos (by simp [hs])]
      · rw [if_neg hs, if_neg (by
          intro hx
          rcases List.mem_cons.mp hx with h | h
          · exact hk h.symm
          · exact hs h)]
        simp

theorem firstKeysAfter_congr (P : List (List Char × List Char)) :
    ∀ seen1 seen2, (∀ x, x ∈ seen1 ↔ x ∈ seen2) →
      firstKeysAfter seen1 P = firstKeysAfter seen2 P := by
  induction P with
  | nil => intro s1 s2 h; rfl
  | cons p ps ih =>
    intro s1 s2 h
    simp only [firstKeysAfter]
    by_cases hp : p.1 ∈ s1
    · rw [if_pos hp, if_pos ((h p.1).mp hp)]
      exact ih s1 s2 h
    · rw [if_neg hp, if_neg (fun hx => hp ((h p.1).mpr hx))]
      rw [ih (p.1 :: s1) (p.1 :: s2) (by intro x; simp [h x])]

theorem keysOf_addAll (P : List (List Char × List Char)) :
    ∀ d, keysOf (addAll d P) = keysOf d ++ firstKeysAfter (keysOf d) P := by
  induction P with
  | nil => intro d; simp [addAll, firstKeysAfter]
  | cons p ps ih =>
    intro d
    obtain ⟨s, n⟩ := p
    simp only [addAll, firstKeysAfter]
    rw [ih]
    by_cases hs : s ∈ keysOf d
    · rw [keysOf_addCourse, if_pos hs, if_pos hs]
    · rw [keysOf_addCourse, if_neg hs, if_neg hs,
        firstKeysAfter_congr ps (keysOf (d) ++ [s]) (s :: keysOf d) (by intro x; simp [or_comm])]
      simp

/-- C5: the keys of every successfully grouped mapping appear in order of
first appearance of each subject among the parsed lines of the input; in
particular the spec's scenario produces `CS` before `MATH`. -/
theorem keys_in_first_appearance_order :
    (∀ input d, process_courses input = some d → keysOf d = firstKeys (parsedPairs input)) ∧
      process_courses "CS-101\nCS-102\nMATH-201".toList =
        some [("CS".toList, ["101".toList, "102".toList]), ("MATH".toList, ["201".toList])] := by
  constructor
  · intro input d h
    obtain ⟨_, h2⟩ := processLines_some_inv (pyLines (pyStrip input)) [] d h
    rw [h2, firstKeys, keysOf_addAll]
    rfl
  · decide

theorem keys_in_first_appearance_order_w :
    keysOf [("CS".toList, ["101".toList, "102".toList]), ("MATH".toList, ["201".toList])] =
      firstKeys (parsedPairs "CS-101\nCS-102\nMATH-201".toList) :=
  keys_in_first_appearance_order.1 "CS-101\nCS-102\nMATH-201".toList _ (by decide)

theorem lookupD_addCourse (d : Dict) (k n s : List Char) :
    lookupD s (addCourse d k n) =
      if k = s then some ((lookupD s d).getD [] ++ [n]) else lookupD s d := by
  induction d with
  | nil =>
    simp only [addCourse, lookupD]
    by_cases hk : k = s
    · rw [if_pos hk, if_pos hk]
      simp
    · rw [if_neg hk, if_neg hk]
  | cons p rest ih =>
    obtain ⟨k2, v⟩ := p
    simp only [addCourse]
    by_cases hk2 : k2 = k
    · rw [if_pos hk2]
      simp only [lookupD]
      by_cases hs : k2 = s
      · rw [if_pos hs, if_pos (hk2.symm.trans hs)]
        simp [hs]
      · rw [if_neg hs, if_neg (fun h => hs (hk2.trans h)), if_neg hs]
    · rw [if_neg hk2]
      simp only [lookupD]
      by_cases hs : k2 = s
      · rw [if_pos hs, if_pos hs, if_neg (fun h => hk2 (hs.trans h.symm))]
      · rw [if_neg hs, if_neg hs, ih]

theorem lookupD_addAll (P : List (List Char × List Char)) :
    ∀ (d : Dict) (s : List Char), lookupD s (addAll d P) =
      if nums s P = [] then lookupD s d
      else some ((lookupD s d).getD [] ++ nums s P) := by
  induction P with
  | nil => intro d s; simp [addAll, nums]
  | cons p ps ih =>
    intro d s
    obtain ⟨k, n⟩ := p
    simp only [addAll, nums]
    rw [ih, lookupD_addCourse]
    by_cases hk : k = s
    · rw [if_pos hk, if_pos hk]
      by_cases hn : nums s ps = []
      · rw [if_pos hn, if_neg (by simp), hn]
      · rw [if_neg hn, if_neg (by simp)]
        simp
    · rw [if_neg hk, if_neg hk]

/-- C6: in every successfully grouped mapping, the list stored under a
subject is exactly the sequence of that subject's course numbers in input
order, duplicates preserved; in particular `"CS-101\nCS-101"` yields
`{"CS": ["101", "101"]}`. -/
theorem subject_values_in_input_order :
    (∀ input d s vs, process_courses input = some d → lookupD s d = some vs →
        vs = nums s (parsedPairs input)) ∧
      process_courses "CS-101\nCS-101".toList =
        some [("CS".toList, ["101".toList, "101".toList])] := by
  constructor
  · intro input d s vs h hl
    obtain ⟨_, h2⟩ := processLines_some_inv (pyLines (pyStrip input)) [] d h
    rw [h2, lookupD_addAll] at hl
    by_cases hn : nums s ((pyLines (pyStrip input)).filterMap parseLine) = []
    · rw [if_pos hn] at hl
      cases hl
    · rw [if_neg hn] at hl
      simp only [lookupD, Option.getD_none, List.nil_append, Option.some.injEq] at hl
      exact hl.symm
  · decide

theorem subject_values_in_input_order_w :
    (["101".toList, "101".toList] : List (List Char)) =
      nums "CS".toList (parsedPairs "CS-101\nCS-101".toList) :=
  subject_values_in_input_order.1 "CS-101\nCS-101".toList
    [("CS".toList, ["101".toList, "101".toList])] "CS".toList _ (by decide) (by decide)

/-! ### The JSON round trip -/

theorem hexVal_hexDigit (d : Nat) (h : d < 16) : hexVal (hexDigit d) = some d := by
  interval_cases d <;> decide

theorem one_le_escChar_length (c : Char) : 1 ≤ (escChar c).length := by
  unfold escChar
  repeat' split
  all_goals simp [hex4]

theorem le_escStr_length (s : List Char) : s.length ≤ (escStr s).length := by
  induction s with
  | nil => simp [escStr]
  | cons c s ih =>
    simp only [escStr, List.length_append, List.length_cons]
    have := one_le_escChar_length c
    omega

theorem char_valid_range (c : Char) :
    c.toNat < 55296 ∨ (57343 < c.toNat ∧ c.toNat < 1114112) := c.valid

theorem char_not_surrogate (c : Char) :
    ¬(55296 ≤ c.toNat ∧ c.toNat ≤ 56319) ∧ ¬(56320 ≤ c.toNat ∧ c.toNat ≤ 57343) := by
  rcases char_valid_range c with hv | hv <;> exact ⟨by omega, by omega⟩

theorem parseStrBody_quote (f : Nat) (t : List Char) :
    parseStrBody (f + 1) ('"' :: t) = some ([], t) := by
  simp [parseStrBody]

theorem parseStrBody_esc_quote (f : Nat) (t : List Char) :
    parseStrBody (f + 1) ('\\' :: '"' :: t) = consCh '"' (parseStrBody f t) := by
  simp [parseStrBody]

theorem parseStrBody_esc_backslash (f : Nat) (t : List Char) :
    parseStrBody (f + 1) ('\\' :: '\\' :: t) = consCh '\\' (parseStrBody f t) := by
  simp [parseStrBody]

theorem parseStrBody_esc_b (f : Nat) (t : List Char) :
    parseStrBody (f + 1) ('\\' :: 'b' :: t) = consCh '\x08' (parseStrBody f t) := by
  simp [parseStrBody]

theorem parseStrBody_esc_f (f : Nat) (t : List Char) :
    parseStrBody (f + 1) ('\\' :: 'f' :: t) = consCh '\x0c' (parseStrBody f t) := by
  simp [parseStrBody]

theorem parseStrBody_esc_n (f : Nat) (t : List Char) :
    parseStrBody (f + 1) ('\\' :: 'n' :: t) = consCh '\n' (parseStrBody f t) := by
  simp [parseStrBody]

theorem parseStrBody_esc_r (f : Nat) (t : List Char) :
    parseStrBody (f + 1) ('\\' :: 'r' :: t) = consCh '\r' (parseStrBody f t) := by
  simp [parseStrBody]

theorem parseStrBody_esc_t (f : Nat) (t : List Char) :
    parseStrBody (f + 1) ('\\' :: 't' :: t) = consCh '\t' (parseStrBody f t) := by
  simp [parseStrBody]

theorem parseStrBody_plain (f : Nat) (c : Char) (t : List Char) (h1 : ¬c = '"')
    (h2 : ¬c = '\\') (h3 : ¬c.toNat < 32) :
    parseStrBody (f + 1) (c :: t) = consCh c (parseStrBody f t) := by
  simp [parseStrBody, h1, h2, h3]

theorem parseStrBody_u (f : Nat) (n : Nat) (t : List Char) (hlt : n < 65536)
    (hs1 : ¬(55296 ≤ n ∧ n ≤ 56319)) (hs2 : ¬(56320 ≤ n ∧ n ≤ 57343)) :
    parseStrBody (f + 1) ('\\' :: 'u' :: (hex4 n ++ t)) =
      consCh (Char.ofNat n) (parseStrBody f t) := by
  have e1 : hexVal (hexDigit (n / 4096 % 16)) = some (n / 4096 % 16) :=
    hexVal_hexDigit _ (Nat.mod_lt _ (by norm_num))
  have e2 : hexVal (hexDigit (n / 256 % 16)) = some (n / 256 % 16) :=
    hexVal_hexDigit _ (Nat.mod_lt _ (by norm_num))
  have e3 : hexVal (hexDigit (n / 16 % 16)) = some (n / 16 % 16) :=
    hexVal_hexDigit _ (Nat.mod_lt _ (by norm_num))
  have e4 : hexVal (hexDigit (n % 16)) = some (n % 16) :=
    hexVal_hexDigit _ (Nat.mod_lt _ (by norm_num))
  have hn : n / 4096 % 16 * 4096 + n / 256 % 16 * 256 + n / 16 % 16 * 16 + n % 16 = n := by
    omega
  simp [hex4, parseStrBody, e1, e2, e3, e4, hn, hs1, hs2]

theorem parseStrBody_u_pair (f : Nat) (hi lo : Nat) (t : List Char)
    (hhi : 55296 ≤ hi ∧ hi ≤ 56319) (hlo : 56320 ≤ lo ∧ lo ≤ 57343) :
    parseStrBody (f + 1) ('\\' :: 'u' :: (hex4 hi ++ ('\\' :: 'u' :: (hex4 lo ++ t)))) =
      consCh (Char.ofNat (65536 + (hi - 55296) * 1024 + (lo - 56320))) (parseStrBody f t) := by
  have e1 : hexVal (hexDigit (hi / 4096 % 16)) = some (hi / 4096 % 16) :=
    hexVal_hexDigit _ (Nat.mod_lt _ (by norm_num))
  have e2 : hexVal (hexDigit (hi / 256 % 16)) = some (hi / 256 % 16) :=
    hexVal_hexDigit _ (Nat.mod_lt _ (by norm_num))
  have e3 : hexVal (hexDigit (hi / 16 % 16)) = some (hi / 16 % 16) :=
    hexVal_hexDigit _ (Nat.mod_lt _ (by norm_num))
  have e4 : hexVal (hexDigit (hi % 16)) = some (hi % 16) :=
    hexVal_hexDigit _ (Nat.mod_lt _ (by norm_num))
  have f1 : hexVal (hexDigit (lo / 4096 % 16)) = some (lo / 4096 % 16) :=
    hexVal_hexDigit _ (Nat.mod_lt _ (by norm_num))
  have f2 : hexVal (hexDigit (lo / 256 % 16)) = some (lo / 256 % 16) :=
    hexVal_hexDigit _ (Nat.mod_lt _ (by norm_num))
  have f3 : hexVal (hexDigit (lo / 16 % 16)) = some (lo / 16 % 16) :=
    hexVal_hexDigit _ (Nat.mod_lt _ (by norm_num))
  have f4 : hexVal (hexDigit (lo % 16)) = some (lo % 16) :=
    hexVal_hexDigit _ (Nat.mod_lt _ (by norm_num))
  have hnhi : hi / 4096 % 16 * 4096 + hi / 256 % 16 * 256 + hi / 16 % 16 * 16 + hi % 16 = hi := by
    omega
  have hnlo : lo / 4096 % 16 * 4096 + lo / 256 % 16 * 256 + lo / 16 % 16 * 16 + lo % 16 = lo := by
    omega
  simp [hex4, parseStrBody, e1, e2, e3, e4, f1, f2, f3, f4, hnhi, hnlo, hhi, hlo]

theorem parseStrBody_escStr (s : List Char) :
    ∀ fuel t, s.length < fuel →
      parseStrBody fuel (escStr s ++ '"' :: t) = some (s, t) := by
  induction s with
  | nil =>
    intro fuel t h
    cases fuel with
    | zero => omega
    | succ f =>
      show parseStrBody (f + 1) ('"' :: t) = some ([], t)
      exact parseStrBody_quote f t
  | cons c s ih =>
    intro fuel t h
    cases fuel with
    | zero => omega
    | succ f =>
      have hf : s.length < f := by
        simp only [List.length_cons] at h
        omega
      have hrec := ih f t hf
      simp only [escStr, List.append_assoc]
      by_cases h1 : c = '"'
      · subst h1
        rw [show escChar '"' = ['\\', '"'] from by decide]
        simp only [List.cons_append, List.nil_append]
        rw [parseStrBody_esc_quote f _, hrec]
        rfl
      by_cases h2 : c = '\\'
      · subst h2
        rw [show escChar '\\' = ['\\', '\\'] from by decide]
        simp only [List.cons_append, List.nil_append]
        rw [parseStrBody_esc_backslash f _, hrec]
        rfl
      by_cases h3 : c = '\x08'
      · subst h3
        rw [show escChar '\x08' = ['\\', 'b'] from by decide]
        simp only [List.cons_append, List.nil_append]
        rw [parseStrBody_esc_b f _, hrec]
        rfl
      by_cases h4 : c = '\x0c'
      · subst h4
        rw [show escChar '\x0c' = ['\\', 'f'] from by decide]
        simp only [List.cons_append, List.nil_append]
        rw [parseStrBody_esc_f f _, hrec]
        rfl
      by_cases h5 : c = '\n'
      · subst h5
        rw [show escChar '\n' = ['\\', 'n'] from by decide]
        simp only [List.cons_append, List.nil_append]
        rw [parseStrBody_esc_n f _, hrec]
        rfl
      by_cases h6 : c = '\r'
      · subst h6
        rw [show escChar '\r' = ['\\', 'r'] from by decide]
        simp only [List.cons_append, List.nil_append]
        rw [parseStrBody_esc_r f _, hrec]
        rfl
      by_cases h7 : c = '\t'
      · subst h7
        rw [show escChar '\t' = ['\\', 't'] from by decide]
        simp only [List.cons_append, List.nil_append]
        rw [parseStrBody_esc_t f _, hrec]
        rfl
      by_cases h8 : 0x20 ≤ c.toNat ∧ c.toNat ≤ 0x7e
      · have hesc : escChar c = [c] := by
          unfold escChar
          rw [if_neg h1, if_neg h2, if_neg h3, if_neg h4, if_neg h5, if_neg h6, if_neg h7,
            if_pos h8]
        rw [hesc]
        simp only [List.cons_append, List.nil_append]
        rw [parseStrBody_plain f c _ h1 h2 (by omega), hrec]
        rfl
      by_cases h9 : c.toNat < 0x10000
      · have hesc : escChar c = '\\' :: 'u' :: hex4 c.toNat := by
          unfold escChar
          rw [if_neg h1, if_neg h2, if_neg h3, if_neg h4, if_neg h5, if_neg h6, if_neg h7,
            if_neg h8, if_pos h9]
        rw [hesc]
        obtain ⟨hs1, hs2⟩ := char_not_surrogate c
        simp only [List.cons_append]
        rw [parseStrBody_u f c.toNat _ h9 hs1 hs2, Char.ofNat_toNat, hrec]
        rfl
      · have hesc : escChar c =
            ('\\' :: 'u' :: hex4 (0xd800 + (c.toNat - 0x10000) / 0x400)) ++
              ('\\' :: 'u' :: hex4 (0xdc00 + (c.toNat - 0x10000) % 0x400)) := by
          unfold escChar
          rw [if_neg h1, if_neg h2, if_neg h3, if_neg h4, if_neg h5, if_neg h6, if_neg h7,
            if_neg h8, if_neg h9]
        rw [hesc]
        have hlow : c.toNat < 1114112 := by
          rcases char_valid_range c with hv | hv
          · omega
          · omega
        have hge : 65536 ≤ c.toNat := by omega
        have hmlt : c.toNat - 65536 < 1048576 := by omega
        simp only [List.cons_append, List.append_assoc]
        rw [parseStrBody_u_pair f (55296 + (c.toNat - 65536) / 1024)
          (56320 + (c.toNat - 65536) % 1024) _ (by omega) (by omega)]
        have hdec : 65536 + (55296 + (c.toNat - 65536) / 1024 - 55296) * 1024 +
            (56320 + (c.toNat - 65536) % 1024 - 56320) = c.toNat := by omega
        rw [hdec, Char.ofNat_toNat, hrec]
        rfl

theorem skipWs_cons_of_ws (c : Char) (t : List Char) (h : jws c = true) :
    skipWs (c :: t) = skipWs t := by
  unfold skipWs
  exact List.dropWhile_cons_of_pos h

theorem skipWs_cons_of_not (c : Char) (t : List Char) (h : jws c = false) :
    skipWs (c :: t) = c :: t := by
  unfold skipWs
  exact List.dropWhile_cons_of_neg (by simp [h])

theorem parseItems_cons_ws (fuel : Nat) (c : Char) (x : List Char) (h : jws c = true) :
    parseItems fuel (c :: x) = parseItems fuel x := by
  cases fuel with
  | zero => rfl
  | succ f => simp only [parseItems, skipWs_cons_of_ws c x h]

theorem parseArr_cons_ws (fuel : Nat) (c : Char) (x : List Char) (h : jws c = true) :
    parseArr fuel (c :: x) = parseArr fuel x := by
  simp only [parseArr, skipWs_cons_of_ws c x h]

theorem parseEntries_cons_ws (fuel : Nat) (c : Char) (x : List Char) (h : jws c = true) :
    parseEntries fuel (c :: x) = parseEntries fuel x := by
  cases fuel with
  | zero => rfl
  | succ f => simp only [parseEntries, skipWs_cons_of_ws c x h]

theorem parseItems_dumpArrTail (vs : List (List Char)) :
    vs ≠ [] → ∀ fuel t, (dumpArrTail vs ++ t).length < fuel →
      parseItems fuel (dumpArrTail vs ++ t) = some (vs, t) := by
  induction vs with
  | nil => intro h; cases h rfl
  | cons v vs ih =>
    intro _ fuel t hlen
    cases fuel with
    | zero => exact absurd hlen (Nat.not_lt_zero _)
    | succ f =>
      cases vs with
      | nil =>
        have hDA : dumpArrTail [v] =
            ' ' :: ' ' :: ' ' :: ' ' :: (dumpStr v ++ ('\n' :: ' ' :: ' ' :: ']' :: [])) := rfl
        rw [hDA] at hlen ⊢
        have hvlen : v.length < f + 1 := by
          have h1 := le_escStr_length v
          simp [dumpStr, List.length_append] at hlen
          omega
        have hstr := parseStrBody_escStr v (f + 1) ('\n' :: ' ' :: ' ' :: ']' :: t) hvlen
        simp only [dumpStr, List.cons_append, List.append_assoc, List.nil_append]
        simp [parseItems, skipWs, jws, hstr, consCh]
      | cons v2 vs2 =>
        have hDA : dumpArrTail (v :: v2 :: vs2) =
            ' ' :: ' ' :: ' ' :: ' ' ::
              (dumpStr v ++ (',' :: '\n' :: dumpArrTail (v2 :: vs2))) := rfl
        rw [hDA] at hlen ⊢
        have h1 := le_escStr_length v
        have hvlen : v.length < f + 1 := by
          simp [dumpStr, List.length_append] at hlen
          omega
        have hstr := parseStrBody_escStr v (f + 1)
          (',' :: '\n' :: (dumpArrTail (v2 :: vs2) ++ t)) hvlen
        have hihlen : (dumpArrTail (v2 :: vs2) ++ t).length < f := by
          simp [dumpStr, List.length_append] at hlen ⊢
          omega
        have hih := ih (by simp) f t hihlen
        have hws : parseItems f ('\n' :: (dumpArrTail (v2 :: vs2) ++ t)) =
            parseItems f (dumpArrTail (v2 :: vs2) ++ t) :=
          parseItems_cons_ws f '\n' _ (by decide)
        simp only [dumpStr, List.cons_append, List.append_assoc, List.nil_append]
        simp [parseItems, skipWs, jws, hstr, hws, hih, consCh]

theorem parseArr_dumpArr (vs : List (List Char)) :
    ∀ fuel t, (dumpArr vs ++ t).length < fuel →
      parseArr fuel (dumpArr vs ++ t) = some (vs, t) := by
  cases vs with
  | nil =>
    intro fuel t h
    have hD : dumpArr [] = '[' :: ']' :: [] := rfl
    rw [hD]
    simp only [List.cons_append, List.nil_append]
    simp [parseArr, skipWs, jws]
  | cons v vs2 =>
    intro fuel t h
    have hD : dumpArr (v :: vs2) = '[' :: '\n' :: dumpArrTail (v :: vs2) := rfl
    rw [hD] at h ⊢
    have hlen : (dumpArrTail (v :: vs2) ++ t).length < fuel := by
      simp [List.length_append] at h ⊢
      omega
    have hitems := parseItems_dumpArrTail (v :: vs2) (by simp) fuel t hlen
    have hDA : dumpArrTail (v :: vs2) = match vs2 with
        | [] => ' ' :: ' ' :: ' ' :: ' ' :: (dumpStr v ++ ('\n' :: ' ' :: ' ' :: ']' :: []))
        | v2 :: vs3 => ' ' :: ' ' :: ' ' :: ' ' ::
            (dumpStr v ++ (',' :: '\n' :: dumpArrTail (v2 :: vs3))) := by
      cases vs2 with
      | nil => rfl
      | cons v2 vs3 => rfl
    cases vs2 with
    | nil =>
      simp only at hDA
      rw [hDA] at hitems ⊢
      simp only [dumpStr, List.cons_append, List.append_assoc, List.nil_append] at hitems ⊢
      simp [parseArr, skipWs, jws] at hitems ⊢
      rw [parseItems_cons_ws fuel '\n' _ (by decide)]
      exact hitems
    | cons v2 vs3 =>
      simp only at hDA
      rw [hDA] at hitems ⊢
      simp only [dumpStr, List.cons_append, List.append_assoc, List.nil_append] at hitems ⊢
      simp [parseArr, skipWs, jws] at hitems ⊢
      rw [parseItems_cons_ws fuel '\n' _ (by decide)]
      exact hitems

theorem parseEntries_dumpEntriesTail (d : Dict) :
    d ≠ [] → ∀ fuel t, (dumpEntriesTail d ++ t).length < fuel →
      parseEntries fuel (dumpEntriesTail d ++ t) = some (d, t) := by
  induction d with
  | nil => intro h; cases h rfl
  | cons e d2 ih =>
    obtain ⟨k, v⟩ := e
    intro _ fuel t hlen
    cases fuel with
    | zero => exact absurd hlen (Nat.not_lt_zero _)
    | succ f =>
      cases d2 with
      | nil =>
        have hDE : dumpEntriesTail [(k, v)] =
            ' ' :: ' ' :: (dumpStr k ++ (':' :: ' ' :: (dumpArr v ++ ('\n' :: '}' :: [])))) := rfl
        rw [hDE] at hlen ⊢
        have h1 := le_escStr_length k
        have hklen : k.length < f + 1 := by
          simp [dumpStr, List.length_append] at hlen
          omega
        have hstr := parseStrBody_escStr k (f + 1)
          (':' :: ' ' :: (dumpArr v ++ ('\n' :: '}' :: t))) hklen
        have harrlen : (dumpArr v ++ ('\n' :: '}' :: t)).length < f + 1 := by
          simp [dumpStr, List.length_append] at hlen ⊢
          omega
        have harr := parseArr_dumpArr v (f + 1) ('\n' :: '}' :: t) harrlen
        have harrws : parseArr (f + 1) (' ' :: (dumpArr v ++ ('\n' :: '}' :: t))) =
            parseArr (f + 1) (dumpArr v ++ ('\n' :: '}' :: t)) :=
          parseArr_cons_ws (f + 1) ' ' _ (by decide)
        simp only [dumpStr, List.cons_append, List.append_assoc, List.nil_append]
        simp [parseEntries, skipWs, jws, hstr, harrws, harr, consCh]
      | cons e2 d3 =>
        have hDE : dumpEntriesTail ((k, v) :: e2 :: d3) =
            ' ' :: ' ' :: (dumpStr k ++ (':' :: ' ' ::
              (dumpArr v ++ (',' :: '\n' :: dumpEntriesTail (e2 :: d3))))) := rfl
        rw [hDE] at hlen ⊢
        have h1 := le_escStr_length k
        have hklen : k.length < f + 1 := by
          simp [dumpStr, List.length_append] at hlen
          omega
        have hstr := parseStrBody_escStr k (f + 1)
          (':' :: ' ' :: (dumpArr v ++ (',' :: '\n' :: (dumpEntriesTail (e2 :: d3) ++ t)))) hklen
        have harrlen :
            (dumpArr v ++ (',' :: '\n' :: (dumpEntriesTail (e2 :: d3) ++ t))).length < f + 1 := by
          simp [dumpStr, List.length_append] at hlen ⊢
          omega
        have harr := parseArr_dumpArr v (f + 1)
          (',' :: '\n' :: (dumpEntriesTail (e2 :: d3) ++ t)) harrlen
        have harrws : parseArr (f + 1)
            (' ' :: (dumpArr v ++ (',' :: '\n' :: (dumpEntriesTail (e2 :: d3) ++ t)))) =
            parseArr (f + 1) (dumpArr v ++ (',' :: '\n' :: (dumpEntriesTail (e2 :: d3) ++ t))) :=
          parseArr_cons_ws (f + 1) ' ' _ (by decide)
        have hihlen : (dumpEntriesTail (e2 :: d3) ++ t).length < f := by
          simp [dumpStr, List.length_append] at hlen ⊢
          omega
        have hih := ih (by simp) f t hihlen
        have hws : parseEntries f ('\n' :: (dumpEntriesTail (e2 :: d3) ++ t)) =
            parseEntries f (dumpEntriesTail (e2 :: d3) ++ t) :=
          parseEntries_cons_ws f '\n' _ (by decide)
        simp only [dumpStr, List.cons_append, List.append_assoc, List.nil_append]
        simp [parseEntries, skipWs, jws, hstr, harrws, harr, hws, hih, consCh]

/-- The general round trip: parsing the serialized text of any dict gives
back the dict. -/
theorem jsonLoads_jsonDump (d : Dict) : jsonLoads (jsonDump d) = some d := by
  cases d with
  | nil => decide
  | cons e d2 =>
    obtain ⟨k, v⟩ := e
    have hJ : jsonDump ((k, v) :: d2) = '{' :: '\n' :: dumpEntriesTail ((k, v) :: d2) := rfl
    rw [hJ]
    obtain ⟨X, hX⟩ : ∃ X, dumpEntriesTail ((k, v) :: d2) = ' ' :: ' ' :: '"' :: X := by
      cases d2 with
      | nil => exact ⟨_, rfl⟩
      | cons e2 d3 => exact ⟨_, rfl⟩
    have hlen : (dumpEntriesTail ((k, v) :: d2) ++ ([] : List Char)).length <
        ('{' :: '\n' :: dumpEntriesTail ((k, v) :: d2) : List Char).length + 1 := by
      simp
      omega
    have hent := parseEntries_dumpEntriesTail ((k, v) :: d2) (by simp)
      (('{' :: '\n' :: dumpEntriesTail ((k, v) :: d2) : List Char).length + 1) [] hlen
    rw [List.append_nil] at hent
    rw [hX] at hent ⊢
    have hws : parseEntries (('{' :: '\n' :: ' ' :: ' ' :: '"' :: X : List Char).length + 1)
        ('\n' :: ' ' :: ' ' :: '"' :: X) =
        parseEntries (('{' :: '\n' :: ' ' :: ' ' :: '"' :: X : List Char).length + 1)
          (' ' :: ' ' :: '"' :: X) :=
      parseEntries_cons_ws _ '\n' _ (by decide)
    simp [jsonLoads, skipWs, jws] at hent hws ⊢
    rw [hws, hent]
    simp [skipWs]

/-- C8: round trip: for every mapping the grouper produces, the driver
writes exactly the 2-space-indented JSON serialization of it, and parsing
that text reconstructs a mapping equal to the in-memory one, with the
same keys in the same order bound to the same value lists. -/
theorem json_round_trip (input : List Char) (d : Dict)
    (h : process_courses input = some d) :
    drive input = some (jsonDump d) ∧ jsonLoads (jsonDump d) = some d := by
  constructor
  · simp [drive, h]
  · exact jsonLoads_jsonDump d

theorem json_round_trip_w :
    drive "CS-101".toList = some (jsonDump [("CS".toList, ["101".toList])]) ∧
      jsonLoads (jsonDump [("CS".toList, ["101".toList])]) =
        some [("CS".toList, ["101".toList])] :=
  json_round_trip "CS-101".toList _ (by decide)
